import Mathlib

/-!
Verification of the caching core of the `caching-demo` repository:
the LRU store (`LRUCache.ts`), the freshness-checked fetch-through cache
(`Cache.ts`), and the rendezvous-hashing router (`hrwRouting.ts`).

The doubly-linked recency list plus the `Map<string, Node>` of `LRUCache`
are modelled together as an association list kept in recency order,
least-recently used first (the node right after the dummy head) and
most-recently used last (the node right before the dummy tail).  The two
containers of the source always hold the same set of nodes, so a single
list represents both; the per-key uniqueness of the `Map` appears as a
`Nodup` hypothesis on the key list where a proof needs it.

`Cache.get` is an `async` method; a call runs synchronously up to the
`await this.fetcher(key)` suspension point, so one call decomposes into
the synchronous prefix (`Cache.getStep`: store lookup, freshness check,
join or start of the shared in-flight promise) and the settlement
continuation (`Cache.settleStep`: store write on success, removal of the
in-flight entry, resolution of the shared promise).  Concurrent callers
of the single-threaded event loop interleave these atomic pieces.
-/

namespace CachingDemo

section Defs

variable {κ ν : Type} [DecidableEq κ]

/-- First entry of the association list whose key is `k`; models
`Map.get` of the source (the map holds at most one node per key). -/
def findEntry (k : κ) : List (κ × ν) → Option (κ × ν)
  | [] => none
  | e :: es => if e.1 = k then some e else findEntry k es

/-- Remove the first entry whose key is `k`; models `removeNode` applied
to the node found for `k` (plus `Map.delete` where the source does it). -/
def eraseKey (k : κ) : List (κ × ν) → List (κ × ν)
  | [] => []
  | e :: es => if e.1 = k then es else e :: eraseKey k es

end Defs

/-- State of `class LRUCache`: configured capacity plus the entries in
recency order (least-recently used first, most-recently used last). -/
structure LRUCache (κ ν : Type) where
  capacity : Nat
  entries : List (κ × ν)
deriving DecidableEq

section LRUDefs

variable {κ ν : Type} [DecidableEq κ]

/-- The `LRUCache` constructor: `capacity <= 0` throws
"Capacity must be greater than 0", otherwise the cache starts empty. -/
def LRUCache.create (κ ν : Type) (capacity : Int) :
    Except String (LRUCache κ ν) :=
  if capacity ≤ 0 then Except.error "Capacity must be greater than 0"
  else Except.ok ⟨capacity.toNat, []⟩

/-- `LRUCache.get`: a resident key is unlinked and re-added before the
tail (most-recently used position) and its value returned; a missing key
returns `undefined` (here `none`) and leaves the state unchanged. -/
def LRUCache.get (c : LRUCache κ ν) (k : κ) : Option ν × LRUCache κ ν :=
  match findEntry k c.entries with
  | none => (none, c)
  | some e => (some e.2, { c with entries := eraseKey k c.entries ++ [e] })

/-- `LRUCache.set`: an existing node gets the new value and moves to the
most-recently used position; a new key first evicts the node after the
dummy head when `cache.size >= capacity` (`removeHead`, a no-op on an
empty list), then is appended at the most-recently used position. -/
def LRUCache.set (c : LRUCache κ ν) (k : κ) (v : ν) : LRUCache κ ν :=
  match findEntry k c.entries with
  | some _ => { c with entries := eraseKey k c.entries ++ [(k, v)] }
  | none =>
    let es := if c.entries.length ≥ c.capacity then c.entries.tail else c.entries
    { c with entries := es ++ [(k, v)] }

/-- One operation of the store API, for stating trace properties. -/
inductive LRUOp (κ ν : Type) where
  | set (k : κ) (v : ν)
  | get (k : κ)

/-- Run a sequence of store operations. -/
def LRUCache.run (c : LRUCache κ ν) : List (LRUOp κ ν) → LRUCache κ ν
  | [] => c
  | LRUOp.set k v :: ops => (c.set k v).run ops
  | LRUOp.get k :: ops => (c.get k).2.run ops

/-- Value written by the last `set` for key `k` in the operation list. -/
def lastSet (ops : List (LRUOp κ ν)) (k : κ) : Option ν :=
  List.foldl
    (fun acc op =>
      match op with
      | LRUOp.set k' v => if k' = k then some v else acc
      | LRUOp.get _ => acc)
    none ops

/-- Invariant tying a store state to its operation history: the capacity
is the configured one, occupancy is bounded by it, the key list is
duplicate-free (one map entry per resident node), and every resident
entry carries the value of the last `set` for its key. -/
def LRUInv (C : Nat) (hist : List (LRUOp κ ν)) (c : LRUCache κ ν) : Prop :=
  c.capacity = C ∧ c.entries.length ≤ C ∧ (c.entries.map Prod.fst).Nodup ∧
    ∀ e ∈ c.entries, lastSet hist e.1 = some e.2

end LRUDefs

/-- Entry stored by `Cache`: the fetched value plus the `nowFn()`
timestamp recorded when it was written (`type CacheEntry`). -/
structure CacheEntry (ν : Type) where
  value : ν
  timestamp : Int
deriving DecidableEq

/-- Settled result of the injected fetcher: resolution or rejection. -/
inductive FetchOutcome (ν ε : Type) where
  | ok (v : ν)
  | err (e : ε)
deriving DecidableEq

/-- State of `class Cache`.  `inFlightRequests` maps a key to the
identity of the shared promise created for its miss episode; it is kept
as an association list so that the per-key uniqueness of the source's
`Map` is a provable invariant rather than a representation artifact.
`fetchLog` records every invocation of the injected fetcher in order;
`resolvedPromises` records each promise settlement together with the
outcome every joiner of that promise observes. -/
structure CacheState (ν ε : Type) where
  lruCache : LRUCache String (CacheEntry ν)
  maxDuration : Int
  inFlightRequests : List (String × Nat)
  nextPromiseId : Nat
  fetchLog : List String
  resolvedPromises : List (Nat × FetchOutcome ν ε)
deriving DecidableEq

section CacheDefs

variable {ν ε : Type}

/-- `new Cache(capacity, fetcher, maxDuration)`: constructs the inner
`LRUCache` (which throws on `capacity <= 0`) and starts with an empty
in-flight table, no fetches performed, no promises settled. -/
def Cache.create (ν ε : Type) (capacity maxDuration : Int) :
    Except String (CacheState ν ε) :=
  Except.map (fun lru => ⟨lru, maxDuration, [], 0, [], []⟩)
    (LRUCache.create String (CacheEntry ν) capacity)

/-- What the synchronous prefix of a `Cache.get` call hands back to its
caller: an immediate fresh value, or the shared promise to await. -/
inductive GetOutcome (ν : Type) where
  | hit (v : ν)
  | awaiting (promiseId : Nat)
deriving DecidableEq

/-- Miss path of `Cache.get` after the freshness check failed: reuse an
existing in-flight promise, or invoke the fetcher and register a new
shared promise under the key. -/
def Cache.joinOrStart (s : CacheState ν ε) (k : String) :
    GetOutcome ν × CacheState ν ε :=
  match findEntry k s.inFlightRequests with
  | some e => (GetOutcome.awaiting e.2, s)
  | none =>
    (GetOutcome.awaiting s.nextPromiseId,
      { s with
        fetchLog := s.fetchLog ++ [k],
        inFlightRequests := s.inFlightRequests ++ [(k, s.nextPromiseId)],
        nextPromiseId := s.nextPromiseId + 1 })

/-- The synchronous prefix of `Cache.get(key)` run at time `now`: the
store lookup (`lruCache.get`, which touches recency even when the entry
turns out to be stale), the freshness check
`now - timestamp < maxDuration`, then the hit or miss path. -/
def Cache.getStep (s : CacheState ν ε) (k : String) (now : Int) :
    GetOutcome ν × CacheState ν ε :=
  let (res, lru') := s.lruCache.get k
  let s' := { s with lruCache := lru' }
  match res with
  | some entry =>
    if now - entry.timestamp < s.maxDuration then
      (GetOutcome.hit entry.value, s')
    else Cache.joinOrStart s' k
  | none => Cache.joinOrStart s' k

/-- Settlement of the in-flight fetch for `key`: the continuation after
`await this.fetcher(key)`.  On success the value is stored with a fresh
`nowFn()` timestamp (possibly evicting per LRU); on failure the store is
untouched.  In both cases the `finally` block deletes the in-flight
entry, and the shared promise settles with the one outcome that every
joiner observes. -/
def Cache.settleStep (s : CacheState ν ε) (k : String)
    (outcome : FetchOutcome ν ε) (now : Int) : CacheState ν ε :=
  match findEntry k s.inFlightRequests with
  | none => s
  | some e =>
    let lru' :=
      match outcome with
      | FetchOutcome.ok v => s.lruCache.set k ⟨v, now⟩
      | FetchOutcome.err _ => s.lruCache
    { s with
      lruCache := lru',
      inFlightRequests := eraseKey k s.inFlightRequests,
      resolvedPromises := s.resolvedPromises ++ [(e.2, outcome)] }

/-- Several `Cache.get` calls for the same key issued back to back with
no settlement in between: how concurrent callers interleave in the
single-threaded event loop while the fetch is outstanding. -/
def Cache.getMany (s : CacheState ν ε) (k : String) :
    List Int → List (GetOutcome ν) × CacheState ν ε
  | [] => ([], s)
  | t :: ts =>
    let p := Cache.getStep s k t
    let q := Cache.getMany p.2 k ts
    (p.1 :: q.1, q.2)

/-- Events that mutate a cache instance: the synchronous prefix of a
`get` call, or the settlement of an in-flight fetch. -/
inductive CacheEvent (ν ε : Type) where
  | call (k : String) (now : Int)
  | settle (k : String) (outcome : FetchOutcome ν ε) (now : Int)

/-- Apply one event to the cache state. -/
def Cache.applyEvent (s : CacheState ν ε) : CacheEvent ν ε → CacheState ν ε
  | CacheEvent.call k now => (Cache.getStep s k now).2
  | CacheEvent.settle k o now => Cache.settleStep s k o now

/-- Run a whole interleaving of events. -/
def Cache.runEvents (s : CacheState ν ε) (events : List (CacheEvent ν ε)) :
    CacheState ν ε :=
  List.foldl Cache.applyEvent s events

/-- The key misses at time `t`: absent from the store, or resident with
`t - timestamp >= maxDuration` (the expiry branch of `Cache.get`). -/
def Cache.staleOrAbsent (s : CacheState ν ε) (k : String) (t : Int) : Bool :=
  match findEntry k s.lruCache.entries with
  | none => true
  | some e => decide (s.maxDuration ≤ t - e.2.timestamp)

end CacheDefs

section RoutingDefs

/-- 32-bit rotate left on values below `2 ^ 32`. -/
def rotl32 (x r : Nat) : Nat :=
  ((x <<< r) ||| (x >>> (32 - r))) % 4294967296

/-- Finalization mix of MurmurHash3 x86 32-bit. -/
def fmix32 (h0 : Nat) : Nat :=
  let h1 := h0 ^^^ (h0 >>> 16)
  let h2 := (h1 * 0x85ebca6b) % 4294967296
  let h3 := h2 ^^^ (h2 >>> 13)
  let h4 := (h3 * 0xc2b2ae35) % 4294967296
  h4 ^^^ (h4 >>> 16)

/-- Body loop of MurmurHash3 x86 32-bit over full 4-byte little-endian
blocks; returns the running hash and the leftover tail bytes. -/
def murmurBlocks : Nat → List Nat → Nat × List Nat
  | h, b0 :: b1 :: b2 :: b3 :: rest =>
    let k1 := (b0 ||| (b1 <<< 8) ||| (b2 <<< 16) ||| (b3 <<< 24)) % 4294967296
    let k2 := (k1 * 0xcc9e2d51) % 4294967296
    let k3 := rotl32 k2 15
    let k4 := (k3 * 0x1b873593) % 4294967296
    let h1 := h ^^^ k4
    let h2 := rotl32 h1 13
    let h3 := (h2 * 5 + 0xe6546b64) % 4294967296
    murmurBlocks h3 rest
  | h, rest => (h, rest)

/-- Tail step of MurmurHash3 x86 32-bit for the last 1 to 3 bytes. -/
def murmurTail (h : Nat) (rest : List Nat) : Nat :=
  let k0 : Nat :=
    match rest with
    | [] => 0
    | [b0] => b0
    | [b0, b1] => b0 ||| (b1 <<< 8)
    | b0 :: b1 :: b2 :: _ => b0 ||| (b1 <<< 8) ||| (b2 <<< 16)
  match rest with
  | [] => h
  | _ =>
    let k1 := (k0 * 0xcc9e2d51) % 4294967296
    let k2 := rotl32 k1 15
    let k3 := (k2 * 0x1b873593) % 4294967296
    h ^^^ k3

/-- MurmurHash3 x86 32-bit (`murmur.x86.hash32`): body blocks, tail,
length xor, finalization. -/
def murmur3x86hash32 (bytes : List Nat) (seed : Nat) : Nat :=
  let p := murmurBlocks (seed % 4294967296) bytes
  let h1 := murmurTail p.1 p.2
  let h2 := h1 ^^^ (bytes.length % 4294967296)
  fmix32 h2

/-- UTF-8 bytes of a string, as plain numbers. -/
def stringBytes (s : String) : List Nat :=
  List.map (fun b => b.toNat) s.toUTF8.toList

/-- `computeScore(key, node)`: MurmurHash3 32-bit hash of the string
`key + ":" + node`, with the library's default seed 0. -/
def computeScore (key node : String) : Int :=
  Int.ofNat (murmur3x86hash32 (stringBytes (key ++ ":" ++ node)) 0)

/-- The scanning loop of `routeToNode`: running pair of selected node
and its weighted score, replaced only on a strictly greater score. -/
def scanNodes (key : String) (weight : Int) :
    String × Int → List String → String × Int
  | acc, [] => acc
  | acc, node :: rest =>
    let score := computeScore key node * weight
    if score > acc.2 then scanNodes key weight (node, score) rest
    else scanNodes key weight acc rest

/-- `routeToNode(key, nodes, weight)`: empty input throws
"No nodes available for routing", a singleton is returned directly,
otherwise the scan starts from `nodes[0]` and covers the rest. -/
def routeToNode (key : String) (nodes : List String) (weight : Int) :
    Except String String :=
  match nodes with
  | [] => Except.error "No nodes available for routing"
  | [n] => Except.ok n
  | n0 :: rest =>
    Except.ok (scanNodes key weight (n0, computeScore key n0 * weight) rest).1

/-- `sel` is selected per the HRW contract: it occurs in `nodes` at a
position of maximal weighted score whose strictly earlier positions all
score strictly lower (ties keep the earlier-seen node). -/
def IsFirstArgmax (key : String) (weight : Int) (nodes : List String)
    (sel : String) : Prop :=
  ∃ i : Nat, ∃ h : i < nodes.length,
    nodes.get ⟨i, h⟩ = sel ∧
    (∀ j : Nat, ∀ hj : j < nodes.length,
      computeScore key (nodes.get ⟨j, hj⟩) * weight ≤
        computeScore key (nodes.get ⟨i, h⟩) * weight) ∧
    (∀ j : Nat, ∀ hj : j < nodes.length, j < i →
      computeScore key (nodes.get ⟨j, hj⟩) * weight <
        computeScore key (nodes.get ⟨i, h⟩) * weight)

end RoutingDefs

section AssocLemmas

variable {κ ν : Type} [DecidableEq κ]

theorem findEntry_eq_none {k : κ} {l : List (κ × ν)} :
    findEntry k l = none ↔ k ∉ l.map Prod.fst := by
  induction l with
  | nil => simp [findEntry]
  | cons e es ih =>
    by_cases h : e.1 = k
    · simp [findEntry, h]
    · simp only [findEntry, h, if_false, List.map_cons, List.mem_cons, ih]
      constructor
      · intro hk hc
        rcases hc with hc | hc
        · exact h hc.symm
        · exact hk hc
      · intro hc hk
        exact hc (Or.inr hk)

theorem findEntry_key {k : κ} {l : List (κ × ν)} {e : κ × ν}
    (h : findEntry k l = some e) : e.1 = k := by
  induction l with
  | nil => simp [findEntry] at h
  | cons a es ih =>
    by_cases ha : a.1 = k
    · simp [findEntry, ha] at h; rw [← h]; exact ha
    · simp [findEntry, ha] at h; exact ih h

theorem findEntry_mem {k : κ} {l : List (κ × ν)} {e : κ × ν}
    (h : findEntry k l = some e) : e ∈ l := by
  induction l with
  | nil => simp [findEntry] at h
  | cons a es ih =>
    by_cases ha : a.1 = k
    · simp [findEntry, ha] at h; simp [h]
    · simp [findEntry, ha] at h; exact List.mem_cons_of_mem _ (ih h)

theorem eraseKey_of_not_mem {k : κ} {l : List (κ × ν)}
    (h : k ∉ l.map Prod.fst) : eraseKey k l = l := by
  induction l with
  | nil => rfl
  | cons e es ih =>
    simp only [List.map_cons, List.mem_cons] at h
    push_neg at h
    have hne : ¬ e.1 = k := fun he => h.1 he.symm
    simp [eraseKey, hne, ih h.2]

theorem eraseKey_subset {k : κ} {l : List (κ × ν)} {e : κ × ν}
    (h : e ∈ eraseKey k l) : e ∈ l := by
  induction l with
  | nil => simp [eraseKey] at h
  | cons a es ih =>
    by_cases ha : a.1 = k
    · simp [eraseKey, ha] at h; exact List.mem_cons_of_mem _ h
    · simp [eraseKey, ha] at h
      rcases h with h | h
      · simp [h]
      · exact List.mem_cons_of_mem _ (ih h)

theorem length_eraseKey_of_found {k : κ} {l : List (κ × ν)} {e : κ × ν}
    (h : findEntry k l = some e) :
    (eraseKey k l).length + 1 = l.length := by
  induction l with
  | nil => simp [findEntry] at h
  | cons a es ih =>
    by_cases ha : a.1 = k
    · simp [eraseKey, ha]
    · simp only [findEntry, ha, if_false] at h
      simp [eraseKey, ha, ih h]

theorem keys_eraseKey_nodup {k : κ} {l : List (κ × ν)}
    (h : (l.map Prod.fst).Nodup) : ((eraseKey k l).map Prod.fst).Nodup := by
  induction l with
  | nil => simp [eraseKey]
  | cons a es ih =>
    simp only [List.map_cons, List.nodup_cons] at h
    by_cases ha : a.1 = k
    · simpa [eraseKey, ha] using h.2
    · simp only [eraseKey, ha, if_false, List.map_cons, List.nodup_cons]
      refine ⟨fun hmem => ?_, ih h.2⟩
      rcases List.mem_map.1 hmem with ⟨b, hb, hfst⟩
      exact h.1 (by simpa [hfst] using List.mem_map_of_mem Prod.fst (eraseKey_subset hb))

theorem not_mem_keys_eraseKey {k : κ} {l : List (κ × ν)}
    (h : (l.map Prod.fst).Nodup) : k ∉ (eraseKey k l).map Prod.fst := by
  induction l with
  | nil => simp [eraseKey]
  | cons a es ih =>
    simp only [List.map_cons, List.nodup_cons] at h
    by_cases ha : a.1 = k
    · simp only [eraseKey, ha, if_true]
      intro hk
      exact h.1 (by simpa [ha] using hk)
    · simp only [eraseKey, ha, if_false, List.map_cons, List.mem_cons]
      push_neg
      exact ⟨fun hk => ha hk.symm, ih h.2⟩

theorem mem_eraseKey_key_ne {k : κ} {l : List (κ × ν)} {e : κ × ν}
    (h : (l.map Prod.fst).Nodup) (hmem : e ∈ eraseKey k l) : e.1 ≠ k := by
  intro hk
  exact not_mem_keys_eraseKey h (by simpa [hk] using List.mem_map_of_mem Prod.fst hmem)

theorem findEntry_eraseKey_ne {k k' : κ} {l : List (κ × ν)} (h : k' ≠ k) :
    findEntry k' (eraseKey k l) = findEntry k' l := by
  induction l with
  | nil => rfl
  | cons a es ih =>
    have h1 : ¬ k = k' := fun hk => h hk.symm
    by_cases ha : a.1 = k
    · simp [eraseKey, ha, findEntry, h1]
    · by_cases ha' : a.1 = k'
      · simp [eraseKey, ha, findEntry, ha', h, h1]
      · simp [eraseKey, ha, findEntry, ha', ih]

theorem findEntry_append_right {k : κ} {l₁ l₂ : List (κ × ν)}
    (h : findEntry k l₁ = none) :
    findEntry k (l₁ ++ l₂) = findEntry k l₂ := by
  induction l₁ with
  | nil => rfl
  | cons a es ih =>
    by_cases ha : a.1 = k
    · simp [findEntry, ha] at h
    · simp only [findEntry, ha, if_false] at h
      simp [findEntry, ha, ih h]

theorem findEntry_eraseKey_append {k : κ} {l : List (κ × ν)} {e : κ × ν}
    (h : (l.map Prod.fst).Nodup) (he : e.1 = k) :
    findEntry k (eraseKey k l ++ [e]) = some e := by
  have hnone : findEntry k (eraseKey k l) = none :=
    findEntry_eq_none.2 (not_mem_keys_eraseKey h)
  rw [findEntry_append_right hnone]
  simp [findEntry, he]

theorem nodup_append_singleton {α : Type} {xs : List α} {a : α}
    (h : xs.Nodup) (ha : a ∉ xs) : (xs ++ [a]).Nodup := by
  refine List.Nodup.append h (List.nodup_singleton a) ?_
  intro x hx hmem
  simp only [List.mem_singleton] at hmem
  exact ha (hmem ▸ hx)

end AssocLemmas

section LRULemmas

variable {κ ν : Type} [DecidableEq κ]

theorem mem_keys_iff_findEntry {k : κ} {l : List (κ × ν)} :
    k ∈ l.map Prod.fst ↔ findEntry k l ≠ none := by
  rw [Ne, findEntry_eq_none]
  exact not_not.symm

theorem lru_set_capacity (c : LRUCache κ ν) (k : κ) (v : ν) :
    (c.set k v).capacity = c.capacity := by
  cases hf : findEntry k c.entries <;> simp [LRUCache.set, hf]

theorem lru_get_capacity (c : LRUCache κ ν) (k : κ) :
    ((c.get k).2).capacity = c.capacity := by
  cases hf : findEntry k c.entries <;> simp [LRUCache.get, hf]

theorem lru_get_of_found {c : LRUCache κ ν} {k : κ} {e : κ × ν}
    (h : findEntry k c.entries = some e) :
    c.get k = (some e.2, { c with entries := eraseKey k c.entries ++ [e] }) := by
  simp [LRUCache.get, h]

theorem lru_get_of_absent {c : LRUCache κ ν} {k : κ}
    (h : findEntry k c.entries = none) : c.get k = (none, c) := by
  simp [LRUCache.get, h]

theorem lru_get_findEntry_self {c : LRUCache κ ν} {k : κ}
    (h : (c.entries.map Prod.fst).Nodup) :
    findEntry k ((c.get k).2).entries = findEntry k c.entries := by
  cases hf : findEntry k c.entries with
  | none => simp [LRUCache.get, hf]
  | some e =>
    simp only [LRUCache.get, hf]
    exact findEntry_eraseKey_append h (findEntry_key hf)

theorem lru_get_nodup {c : LRUCache κ ν} {k : κ}
    (h : (c.entries.map Prod.fst).Nodup) :
    (((c.get k).2).entries.map Prod.fst).Nodup := by
  cases hf : findEntry k c.entries with
  | none => simpa [LRUCache.get, hf] using h
  | some e =>
    have he : e.1 = k := findEntry_key hf
    simp only [LRUCache.get, hf, List.map_append, List.map_cons, List.map_nil]
    refine nodup_append_singleton (keys_eraseKey_nodup h) ?_
    rw [he]
    exact not_mem_keys_eraseKey h

theorem lru_set_findEntry_self {c : LRUCache κ ν} {k : κ} {v : ν}
    (h : (c.entries.map Prod.fst).Nodup) :
    findEntry k ((c.set k v).entries) = some (k, v) := by
  cases hf : findEntry k c.entries with
  | some e =>
    simp only [LRUCache.set, hf]
    exact findEntry_eraseKey_append h rfl
  | none =>
    have hk : k ∉ c.entries.map Prod.fst := findEntry_eq_none.1 hf
    simp only [LRUCache.set, hf]
    have hnone :
        findEntry k
          (if c.entries.length ≥ c.capacity then c.entries.tail
           else c.entries) = none := by
      split
      · refine findEntry_eq_none.2 (fun hmem => ?_)
        rcases List.mem_map.1 hmem with ⟨b, hb, hfst⟩
        exact hk
          (hfst ▸ List.mem_map_of_mem Prod.fst (List.mem_of_mem_tail hb))
      · exact hf
    rw [findEntry_append_right hnone]
    simp [findEntry]

theorem lastSet_append_get (hist : List (LRUOp κ ν)) (k k' : κ) :
    lastSet (hist ++ [LRUOp.get k]) k' = lastSet hist k' := by
  simp [lastSet, List.foldl_append]

theorem lastSet_append_set_self (hist : List (LRUOp κ ν)) (k : κ) (v : ν) :
    lastSet (hist ++ [LRUOp.set k v]) k = some v := by
  simp [lastSet, List.foldl_append]

theorem lastSet_append_set_ne (hist : List (LRUOp κ ν)) {k k' : κ} (v : ν)
    (h : k ≠ k') : lastSet (hist ++ [LRUOp.set k v]) k' = lastSet hist k' := by
  simp [lastSet, List.foldl_append, h]

theorem LRUInv_set {C : Nat} (hC : 0 < C) {hist : List (LRUOp κ ν)}
    {c : LRUCache κ ν} (h : LRUInv C hist c) (k : κ) (v : ν) :
    LRUInv C (hist ++ [LRUOp.set k v]) (c.set k v) := by
  obtain ⟨hcap, hlen, hnodup, hval⟩ := h
  cases hf : findEntry k c.entries with
  | some e =>
    refine ⟨(lru_set_capacity c k v).trans hcap, ?_, ?_, ?_⟩
    · simp only [LRUCache.set, hf, List.length_append, List.length_cons,
        List.length_nil]
      have := length_eraseKey_of_found hf
      omega
    · simp only [LRUCache.set, hf, List.map_append, List.map_cons,
        List.map_nil]
      exact nodup_append_singleton (keys_eraseKey_nodup hnodup)
        (not_mem_keys_eraseKey hnodup)
    · intro e' he'
      simp only [LRUCache.set, hf, List.mem_append, List.mem_singleton] at he'
      rcases he' with he' | he'
      · have hne : e'.1 ≠ k := mem_eraseKey_key_ne hnodup he'
        rw [lastSet_append_set_ne hist v (fun hk => hne hk.symm)]
        exact hval e' (eraseKey_subset he')
      · subst he'
        exact lastSet_append_set_self hist k v
  | none =>
    have hk : k ∉ c.entries.map Prod.fst := findEntry_eq_none.1 hf
    have hset : (c.set k v).entries =
        (if c.entries.length ≥ c.capacity then c.entries.tail
         else c.entries) ++ [(k, v)] := by
      simp [LRUCache.set, hf]
    by_cases hge : c.entries.length ≥ c.capacity
    · rw [if_pos hge] at hset
      refine ⟨(lru_set_capacity c k v).trans hcap, ?_, ?_, ?_⟩
      · rw [hset]
        simp only [List.length_append, List.length_cons, List.length_nil,
          List.length_tail]
        omega
      · rw [hset]
        simp only [List.map_append, List.map_cons, List.map_nil]
        refine nodup_append_singleton ?_ ?_
        · rw [List.map_tail]
          exact List.Nodup.sublist (List.tail_sublist _) hnodup
        · intro hmem
          rcases List.mem_map.1 hmem with ⟨b, hb, hfst⟩
          exact hk
            (hfst ▸ List.mem_map_of_mem Prod.fst (List.mem_of_mem_tail hb))
      · intro e' he'
        rw [hset] at he'
        simp only [List.mem_append, List.mem_singleton] at he'
        rcases he' with he' | he'
        · have hmem : e' ∈ c.entries := List.mem_of_mem_tail he'
          have hne : k ≠ e'.1 := by
            intro hkk
            exact hk (hkk ▸ List.mem_map_of_mem Prod.fst hmem)
          rw [lastSet_append_set_ne hist v hne]
          exact hval e' hmem
        · subst he'
          exact lastSet_append_set_self hist k v
    · rw [if_neg hge] at hset
      refine ⟨(lru_set_capacity c k v).trans hcap, ?_, ?_, ?_⟩
      · rw [hset]
        simp only [List.length_append, List.length_cons, List.length_nil]
        omega
      · rw [hset]
        simp only [List.map_append, List.map_cons, List.map_nil]
        exact nodup_append_singleton hnodup hk
      · intro e' he'
        rw [hset] at he'
        simp only [List.mem_append, List.mem_singleton] at he'
        rcases he' with he' | he'
        · have hne : k ≠ e'.1 := by
            intro hkk
            exact hk (hkk ▸ List.mem_map_of_mem Prod.fst he')
          rw [lastSet_append_set_ne hist v hne]
          exact hval e' he'
        · subst he'
          exact lastSet_append_set_self hist k v

theorem LRUInv_get {C : Nat} {hist : List (LRUOp κ ν)} {c : LRUCache κ ν}
    (h : LRUInv C hist c) (k : κ) :
    LRUInv C (hist ++ [LRUOp.get k]) (c.get k).2 := by
  obtain ⟨hcap, hlen, hnodup, hval⟩ := h
  cases hf : findEntry k c.entries with
  | none =>
    rw [lru_get_of_absent hf]
    refine ⟨hcap, hlen, hnodup, ?_⟩
    intro e' he'
    rw [lastSet_append_get]
    exact hval e' he'
  | some e =>
    have he : e.1 = k := findEntry_key hf
    rw [lru_get_of_found hf]
    refine ⟨hcap, ?_, ?_, ?_⟩
    · simp only [List.length_append, List.length_cons, List.length_nil]
      have := length_eraseKey_of_found hf
      omega
    · simp only [List.map_append, List.map_cons, List.map_nil]
      refine nodup_append_singleton (keys_eraseKey_nodup hnodup) ?_
      rw [he]
      exact not_mem_keys_eraseKey hnodup
    · intro e' he'
      rw [lastSet_append_get]
      simp only [List.mem_append, List.mem_singleton] at he'
      rcases he' with he' | he'
      · exact hval e' (eraseKey_subset he')
      · rw [he']
        exact hval e (findEntry_mem hf)

theorem LRUInv_run {C : Nat} (hC : 0 < C) :
    ∀ (ops hist : List (LRUOp κ ν)) (c : LRUCache κ ν),
      LRUInv C hist c → LRUInv C (hist ++ ops) (c.run ops) := by
  intro ops
  induction ops with
  | nil =>
    intro hist c h
    simpa [LRUCache.run] using h
  | cons op ops ih =>
    intro hist c h
    cases op with
    | set k v =>
      have h2 := ih (hist ++ [LRUOp.set k v]) (c.set k v) (LRUInv_set hC h k v)
      simpa [LRUCache.run] using h2
    | get k =>
      have h2 := ih (hist ++ [LRUOp.get k]) (c.get k).2 (LRUInv_get h k)
      simpa [LRUCache.run] using h2

theorem lru_set_found {c : LRUCache κ ν} {k : κ} (v : ν) {e : κ × ν}
    (hf : findEntry k c.entries = some e) :
    (c.set k v).entries = eraseKey k c.entries ++ [(k, v)] := by
  simp [LRUCache.set, hf]

theorem lru_set_absent_full {c : LRUCache κ ν} {k : κ} (v : ν)
    (hf : findEntry k c.entries = none)
    (hge : c.entries.length ≥ c.capacity) :
    (c.set k v).entries = c.entries.tail ++ [(k, v)] := by
  simp [LRUCache.set, hf, hge]

theorem lru_set_absent_spare {c : LRUCache κ ν} {k : κ} (v : ν)
    (hf : findEntry k c.entries = none)
    (hlt : c.entries.length < c.capacity) :
    (c.set k v).entries = c.entries ++ [(k, v)] := by
  have hnot : ¬ c.entries.length ≥ c.capacity := not_le.2 hlt
  simp [LRUCache.set, hf, hnot]

theorem getLast?_append_singleton {α : Type} (l : List α) (a : α) :
    (l ++ [a]).getLast? = some a := by
  rw [List.getLast?_append_of_ne_nil l (by simp)]
  rfl

end LRULemmas

section StoreTheorems

variable {κ ν : Type} [DecidableEq κ]

/-- C3: for every capacity C > 0 and every sequence of `LRUCache.set`
and `LRUCache.get` operations run from a freshly constructed store, the
number of resident entries (the size of the key-to-node map, which the
duplicate-free key list makes equal to the entry-list length) never
exceeds C, and every key that was set and not subsequently evicted
(i.e. is still resident) returns its last-set value from `get`. -/
theorem lru_capacity_and_last_value {capacity : Int} {c0 : LRUCache κ ν}
    (hcreate : LRUCache.create κ ν capacity = Except.ok c0)
    (ops : List (LRUOp κ ν)) :
    (c0.run ops).entries.length ≤ c0.capacity ∧
    ((c0.run ops).entries.map Prod.fst).Nodup ∧
    ∀ k v, ((c0.run ops).get k).1 = some v → lastSet ops k = some v := by
  unfold LRUCache.create at hcreate
  by_cases hle : capacity ≤ 0
  · rw [if_pos hle] at hcreate
    exact absurd hcreate (by simp)
  · rw [if_neg hle] at hcreate
    have hc0 : (⟨capacity.toNat, []⟩ : LRUCache κ ν) = c0 := by
      simpa using hcreate
    subst hc0
    have hC : 0 < capacity.toNat := by omega
    have hinv := LRUInv_run (C := capacity.toNat) hC ops []
      ⟨capacity.toNat, []⟩ ⟨rfl, by simp, by simp, by simp⟩
    rw [List.nil_append] at hinv
    obtain ⟨hcap, hlen, hnodup, hval⟩ := hinv
    refine ⟨by simpa [hcap] using hlen, hnodup, ?_⟩
    intro k v hget
    cases hfind : findEntry k ((⟨capacity.toNat, []⟩ : LRUCache κ ν).run ops).entries with
    | none =>
      rw [lru_get_of_absent hfind] at hget
      simp at hget
    | some e =>
      rw [lru_get_of_found hfind] at hget
      simp only [Option.some.injEq] at hget
      have hlast := hval e (findEntry_mem hfind)
      rw [findEntry_key hfind, hget] at hlast
      exact hlast

/-- Witness for C3 at capacity 2 with three inserts and a hit on the
surviving key. -/
theorem lru_capacity_and_last_value_witness :
    ((((⟨2, []⟩ : LRUCache Nat Nat).run
        [LRUOp.set 1 10, LRUOp.set 2 20, LRUOp.set 3 30]).entries.length ≤
      (⟨2, []⟩ : LRUCache Nat Nat).capacity)) ∧
    lastSet
      ([LRUOp.set 1 10, LRUOp.set 2 20, LRUOp.set 3 30] : List (LRUOp Nat Nat))
      3 = some 30 := by
  have hcr : LRUCache.create Nat Nat 2 = Except.ok ⟨2, []⟩ := by
    norm_num [LRUCache.create]
    rfl
  have h := lru_capacity_and_last_value hcr
    [LRUOp.set 1 10, LRUOp.set 2 20, LRUOp.set 3 30]
  exact ⟨h.1, h.2.2 3 30 (by decide)⟩

/-- C4: on a full store (occupancy equals capacity), `set` of a fresh
key evicts exactly the head of the recency list (the least recently
touched resident entry), keeps every other entry, and leaves occupancy
at capacity; `set` of an already-resident key changes neither occupancy
nor the set of resident keys. -/
theorem lru_eviction_exact {c : LRUCache κ ν} :
    (∀ k v, 0 < c.capacity → c.entries.length = c.capacity →
      findEntry k c.entries = none →
      ∃ e rest, c.entries = e :: rest ∧
        (c.set k v).entries = rest ++ [(k, v)] ∧
        (c.set k v).entries.length = c.capacity) ∧
    (∀ k v e, findEntry k c.entries = some e →
      (c.set k v).entries.length = c.entries.length ∧
      ∀ k', k' ∈ c.entries.map Prod.fst ↔
        k' ∈ (c.set k v).entries.map Prod.fst) := by
  constructor
  · intro k v hpos hfull hf
    have hge : c.entries.length ≥ c.capacity := le_of_eq hfull.symm
    have hset := lru_set_absent_full v hf hge
    cases hent : c.entries with
    | nil =>
      rw [hent] at hfull
      simp at hfull
      omega
    | cons e rest =>
      refine ⟨e, rest, rfl, ?_, ?_⟩
      · rw [hset, hent]
        simp
      · rw [hset, hent]
        have : c.entries.length = rest.length + 1 := by rw [hent]; simp
        simp only [List.tail_cons, List.length_append, List.length_cons,
          List.length_nil]
        omega
  · intro k v e hf
    have hset := lru_set_found v hf
    constructor
    · rw [hset]
      simp only [List.length_append, List.length_cons, List.length_nil]
      have := length_eraseKey_of_found hf
      omega
    · intro k'
      by_cases hk' : k' = k
      · subst hk'
        have hmemL : k' ∈ c.entries.map Prod.fst :=
          findEntry_key hf ▸ List.mem_map_of_mem Prod.fst (findEntry_mem hf)
        have hmemR : k' ∈ (c.set k' v).entries.map Prod.fst := by
          rw [hset]
          simp
        exact iff_of_true hmemL hmemR
      · rw [hset]
        simp only [List.map_append, List.map_cons, List.map_nil,
          List.mem_append, List.mem_singleton]
        rw [mem_keys_iff_findEntry, mem_keys_iff_findEntry,
          findEntry_eraseKey_ne hk']
        simp [hk']

/-- Witness for C4: a full 2-entry store evicting on a fresh key, and a
resident-key update keeping occupancy. -/
theorem lru_eviction_exact_witness :
    (∃ e rest,
      (⟨2, [(1, 10), (2, 20)]⟩ : LRUCache Nat Nat).entries = e :: rest ∧
      ((⟨2, [(1, 10), (2, 20)]⟩ : LRUCache Nat Nat).set 3 30).entries =
        rest ++ [(3, 30)] ∧
      ((⟨2, [(1, 10), (2, 20)]⟩ : LRUCache Nat Nat).set 3 30).entries.length =
        (⟨2, [(1, 10), (2, 20)]⟩ : LRUCache Nat Nat).capacity) ∧
    ((⟨2, [(1, 10), (2, 20)]⟩ : LRUCache Nat Nat).set 1 99).entries.length =
      (⟨2, [(1, 10), (2, 20)]⟩ : LRUCache Nat Nat).entries.length :=
  ⟨lru_eviction_exact.1 3 30 (by decide) (by decide) (by decide),
   (lru_eviction_exact.2 1 99 (1, 10) (by decide)).1⟩

/-- C6: `get` of a resident key returns its value and moves it to the
most-recently-used position (the end of the recency list, every other
entry keeping its relative order), which is what alters the subsequent
eviction order; `get` of a non-resident key returns `undefined` and
leaves the store unchanged. -/
theorem lru_get_promotes {c : LRUCache κ ν} :
    (∀ k v, findEntry k c.entries = some (k, v) →
      (c.get k).1 = some v ∧
      (c.get k).2.entries = eraseKey k c.entries ++ [(k, v)] ∧
      (c.get k).2.entries.getLast? = some (k, v)) ∧
    (∀ k, findEntry k c.entries = none → c.get k = (none, c)) := by
  constructor
  · intro k v hf
    rw [lru_get_of_found hf]
    exact ⟨rfl, rfl, getLast?_append_singleton _ _⟩
  · intro k hf
    exact lru_get_of_absent hf

/-- Witness for C6: promotion of the least-recent key and a miss. -/
theorem lru_get_promotes_witness :
    ((⟨3, [(1, 10), (2, 20)]⟩ : LRUCache Nat Nat).get 1).1 = some 10 ∧
    ((⟨3, [(1, 10), (2, 20)]⟩ : LRUCache Nat Nat).get 1).2.entries =
      eraseKey 1 [(1, 10), (2, 20)] ++ [(1, 10)] ∧
    ((⟨3, [(1, 10), (2, 20)]⟩ : LRUCache Nat Nat).get 1).2.entries.getLast? =
      some (1, 10) ∧
    (⟨3, [(1, 10), (2, 20)]⟩ : LRUCache Nat Nat).get 5 =
      (none, ⟨3, [(1, 10), (2, 20)]⟩) := by
  obtain ⟨h1, h2, h3⟩ :=
    (@lru_get_promotes Nat Nat _ ⟨3, [(1, 10), (2, 20)]⟩).1 1 10 (by decide)
  exact ⟨h1, h2, h3,
    (@lru_get_promotes Nat Nat _ ⟨3, [(1, 10), (2, 20)]⟩).2 5 (by decide)⟩

/-- C9: constructing the store with capacity ≤ 0 fails with the
configuration error at construction time (the constructor is the only
place the check lives, so nothing is deferred), and so does constructing
the fetch-through cache that wraps it; any capacity > 0 succeeds. -/
theorem constructor_capacity_check (κ ν νv ε : Type)
    (capacity maxDuration : Int) :
    (capacity ≤ 0 ↔
      LRUCache.create κ ν capacity =
        Except.error "Capacity must be greater than 0") ∧
    (0 < capacity ↔ ∃ c, LRUCache.create κ ν capacity = Except.ok c) ∧
    (capacity ≤ 0 ↔
      Cache.create νv ε capacity maxDuration =
        Except.error "Capacity must be greater than 0") ∧
    (0 < capacity ↔ ∃ s, Cache.create νv ε capacity maxDuration =
      Except.ok s) := by
  by_cases h : capacity ≤ 0
  · refine ⟨iff_of_true h (by simp [LRUCache.create, h]), ?_,
      iff_of_true h (by simp [Cache.create, LRUCache.create, h, Except.map]), ?_⟩
    · refine iff_of_false (by omega) ?_
      rintro ⟨c, hc⟩
      simp [LRUCache.create, h] at hc
    · refine iff_of_false (by omega) ?_
      rintro ⟨s, hs⟩
      simp [Cache.create, LRUCache.create, h, Except.map] at hs
  · have hpos : 0 < capacity := by omega
    refine ⟨iff_of_false (by omega) ?_,
      iff_of_true hpos ⟨⟨capacity.toNat, []⟩, by simp [LRUCache.create, h]⟩,
      iff_of_false (by omega) ?_,
      iff_of_true hpos ⟨⟨⟨capacity.toNat, []⟩, maxDuration, [], 0, [], []⟩,
        by simp [Cache.create, LRUCache.create, h, Except.map]⟩⟩
    · intro herr
      simp [LRUCache.create, h] at herr
    · intro herr
      simp [Cache.create, LRUCache.create, h, Except.map] at herr

end StoreTheorems

section CacheLemmas

variable {ν ε : Type}

theorem joinOrStart_join {s : CacheState ν ε} {k : String} {e : String × Nat}
    (hp : findEntry k s.inFlightRequests = some e) :
    Cache.joinOrStart s k = (GetOutcome.awaiting e.2, s) := by
  simp [Cache.joinOrStart, hp]

theorem joinOrStart_start {s : CacheState ν ε} {k : String}
    (hp : findEntry k s.inFlightRequests = none) :
    Cache.joinOrStart s k =
      (GetOutcome.awaiting s.nextPromiseId,
        { s with
          fetchLog := s.fetchLog ++ [k],
          inFlightRequests := s.inFlightRequests ++ [(k, s.nextPromiseId)],
          nextPromiseId := s.nextPromiseId + 1 }) := by
  simp [Cache.joinOrStart, hp]

theorem getStep_hit {s : CacheState ν ε} {k : String}
    {e : String × CacheEntry ν}
    (hf : findEntry k s.lruCache.entries = some e) {t : Int}
    (hfresh : t - e.2.timestamp < s.maxDuration) :
    Cache.getStep s k t =
      (GetOutcome.hit e.2.value,
        { s with lruCache := (s.lruCache.get k).2 }) := by
  unfold Cache.getStep
  rw [lru_get_of_found hf]
  simp [hfresh]

theorem staleOrAbsent_absent {s : CacheState ν ε} {k : String} {t : Int}
    (hf : findEntry k s.lruCache.entries = none) :
    Cache.staleOrAbsent s k t = true := by
  simp [Cache.staleOrAbsent, hf]

theorem staleOrAbsent_found {s : CacheState ν ε} {k : String} {t : Int}
    {e : String × CacheEntry ν}
    (hf : findEntry k s.lruCache.entries = some e) :
    Cache.staleOrAbsent s k t =
      decide (s.maxDuration ≤ t - e.2.timestamp) := by
  simp [Cache.staleOrAbsent, hf]

theorem staleOrAbsent_eq_of {s₁ s₂ : CacheState ν ε} {k : String} {t : Int}
    (hentry : findEntry k s₁.lruCache.entries =
      findEntry k s₂.lruCache.entries)
    (hdur : s₁.maxDuration = s₂.maxDuration) :
    Cache.staleOrAbsent s₁ k t = Cache.staleOrAbsent s₂ k t := by
  cases hf : findEntry k s₂.lruCache.entries with
  | none => rw [staleOrAbsent_absent (hentry.trans hf), staleOrAbsent_absent hf]
  | some e =>
    rw [staleOrAbsent_found (hentry.trans hf), staleOrAbsent_found hf, hdur]

theorem getStep_missBranch {s : CacheState ν ε} {k : String} {t : Int}
    (hmiss : Cache.staleOrAbsent s k t = true) :
    Cache.getStep s k t =
      Cache.joinOrStart { s with lruCache := (s.lruCache.get k).2 } k := by
  cases hf : findEntry k s.lruCache.entries with
  | none =>
    unfold Cache.getStep
    rw [lru_get_of_absent hf]
  | some e =>
    rw [staleOrAbsent_found hf] at hmiss
    have hstale : s.maxDuration ≤ t - e.2.timestamp := of_decide_eq_true hmiss
    have hnot : ¬ (t - e.2.timestamp < s.maxDuration) := not_lt.2 hstale
    unfold Cache.getStep
    rw [lru_get_of_found hf]
    simp [hnot]

theorem getStep_join {s : CacheState ν ε} {k : String} {t : Int}
    {e : String × Nat}
    (hmiss : Cache.staleOrAbsent s k t = true)
    (hp : findEntry k s.inFlightRequests = some e) :
    Cache.getStep s k t =
      (GetOutcome.awaiting e.2,
        { s with lruCache := (s.lruCache.get k).2 }) := by
  rw [getStep_missBranch hmiss]
  exact joinOrStart_join hp

theorem getStep_start {s : CacheState ν ε} {k : String} {t : Int}
    (hmiss : Cache.staleOrAbsent s k t = true)
    (hp : findEntry k s.inFlightRequests = none) :
    Cache.getStep s k t =
      (GetOutcome.awaiting s.nextPromiseId,
        { s with
          lruCache := (s.lruCache.get k).2,
          fetchLog := s.fetchLog ++ [k],
          inFlightRequests := s.inFlightRequests ++ [(k, s.nextPromiseId)],
          nextPromiseId := s.nextPromiseId + 1 }) := by
  rw [getStep_missBranch hmiss]
  exact joinOrStart_start hp

theorem settleStep_found {s : CacheState ν ε} {k : String} {e : String × Nat}
    (hf : findEntry k s.inFlightRequests = some e)
    (o : FetchOutcome ν ε) (t : Int) :
    Cache.settleStep s k o t =
      { s with
        lruCache :=
          match o with
          | FetchOutcome.ok v => s.lruCache.set k ⟨v, t⟩
          | FetchOutcome.err _ => s.lruCache,
        inFlightRequests := eraseKey k s.inFlightRequests,
        resolvedPromises := s.resolvedPromises ++ [(e.2, o)] } := by
  simp [Cache.settleStep, hf]

theorem getMany_join {k : String} {e : String × Nat} :
    ∀ (ts : List Int) (s : CacheState ν ε),
      findEntry k s.inFlightRequests = some e →
      (s.lruCache.entries.map Prod.fst).Nodup →
      (∀ t ∈ ts, Cache.staleOrAbsent s k t = true) →
      (Cache.getMany s k ts).1 =
        ts.map (fun _ => GetOutcome.awaiting e.2) ∧
      (Cache.getMany s k ts).2.inFlightRequests = s.inFlightRequests ∧
      (Cache.getMany s k ts).2.fetchLog = s.fetchLog ∧
      (Cache.getMany s k ts).2.nextPromiseId = s.nextPromiseId ∧
      (Cache.getMany s k ts).2.maxDuration = s.maxDuration ∧
      (Cache.getMany s k ts).2.resolvedPromises = s.resolvedPromises ∧
      findEntry k (Cache.getMany s k ts).2.lruCache.entries =
        findEntry k s.lruCache.entries ∧
      ((Cache.getMany s k ts).2.lruCache.entries.map Prod.fst).Nodup := by
  intro ts
  induction ts with
  | nil =>
    intro s hp hnodup hmiss
    exact ⟨rfl, rfl, rfl, rfl, rfl, rfl, rfl, hnodup⟩
  | cons t ts ih =>
    intro s hp hnodup hmiss
    have hm0 : Cache.staleOrAbsent s k t = true :=
      hmiss t (List.mem_cons_self t ts)
    have hstep := getStep_join hm0 hp
    have hunfold : Cache.getMany s k (t :: ts) =
        ((Cache.getStep s k t).1 ::
          (Cache.getMany (Cache.getStep s k t).2 k ts).1,
         (Cache.getMany (Cache.getStep s k t).2 k ts).2) := rfl
    have hp1 : findEntry k
        ({ s with lruCache := (s.lruCache.get k).2 } :
          CacheState ν ε).inFlightRequests = some e := hp
    have hnodup1 :
        (({ s with lruCache := (s.lruCache.get k).2 } :
          CacheState ν ε).lruCache.entries.map Prod.fst).Nodup :=
      lru_get_nodup hnodup
    have hentry1 : findEntry k
        (({ s with lruCache := (s.lruCache.get k).2 } :
          CacheState ν ε).lruCache.entries) =
        findEntry k s.lruCache.entries :=
      lru_get_findEntry_self hnodup
    have hmiss1 : ∀ t' ∈ ts,
        Cache.staleOrAbsent
          ({ s with lruCache := (s.lruCache.get k).2 } : CacheState ν ε)
          k t' = true := by
      intro t' ht'
      rw [staleOrAbsent_eq_of hentry1 rfl]
      exact hmiss t' (List.mem_cons_of_mem _ ht')
    have hih := ih _ hp1 hnodup1 hmiss1
    rw [hunfold, hstep]
    refine ⟨?_, hih.2.1, hih.2.2.1, hih.2.2.2.1, hih.2.2.2.2.1,
      hih.2.2.2.2.2.1, hih.2.2.2.2.2.2.1.trans hentry1,
      hih.2.2.2.2.2.2.2⟩
    simp only [List.map_cons]
    exact congrArg (fun l => GetOutcome.awaiting e.2 :: l) hih.1

theorem joinOrStart_pending_nodup {s : CacheState ν ε} {k : String}
    (h : (s.inFlightRequests.map Prod.fst).Nodup) :
    (((Cache.joinOrStart s k).2).inFlightRequests.map Prod.fst).Nodup := by
  cases hp : findEntry k s.inFlightRequests with
  | some e => rw [joinOrStart_join hp]; exact h
  | none =>
    rw [joinOrStart_start hp]
    simp only [List.map_append, List.map_cons, List.map_nil]
    exact nodup_append_singleton h (findEntry_eq_none.1 hp)

theorem applyEvent_pending_nodup (s : CacheState ν ε) (ev : CacheEvent ν ε)
    (h : (s.inFlightRequests.map Prod.fst).Nodup) :
    ((Cache.applyEvent s ev).inFlightRequests.map Prod.fst).Nodup := by
  cases ev with
  | call k now =>
    show (((Cache.getStep s k now).2).inFlightRequests.map Prod.fst).Nodup
    cases hf : findEntry k s.lruCache.entries with
    | none =>
      rw [getStep_missBranch (staleOrAbsent_absent hf)]
      exact joinOrStart_pending_nodup h
    | some e =>
      by_cases hfr : now - e.2.timestamp < s.maxDuration
      · rw [getStep_hit hf hfr]
        exact h
      · have hmiss : Cache.staleOrAbsent s k now = true := by
          rw [staleOrAbsent_found hf]
          exact decide_eq_true (not_lt.1 hfr)
        rw [getStep_missBranch hmiss]
        exact joinOrStart_pending_nodup h
  | settle k o now =>
    show ((Cache.settleStep s k o now).inFlightRequests.map Prod.fst).Nodup
    cases hp : findEntry k s.inFlightRequests with
    | none => simpa [Cache.settleStep, hp] using h
    | some e =>
      rw [settleStep_found hp o now]
      exact keys_eraseKey_nodup h

theorem runEvents_pending_nodup :
    ∀ (events : List (CacheEvent ν ε)) (s : CacheState ν ε),
      (s.inFlightRequests.map Prod.fst).Nodup →
      ((Cache.runEvents s events).inFlightRequests.map Prod.fst).Nodup := by
  intro events
  induction events with
  | nil => intro s h; exact h
  | cons ev events ih =>
    intro s h
    exact ih (Cache.applyEvent s ev) (applyEvent_pending_nodup s ev h)

theorem create_ok_inFlight {capacity maxDuration : Int}
    {c0 : CacheState ν ε}
    (h : Cache.create ν ε capacity maxDuration = Except.ok c0) :
    c0.inFlightRequests = [] := by
  unfold Cache.create LRUCache.create at h
  by_cases hle : capacity ≤ 0
  · rw [if_pos hle] at h
    exact absurd h (by simp [Except.map])
  · rw [if_neg hle] at h
    simp only [Except.map] at h
    have : (⟨⟨capacity.toNat, []⟩, maxDuration, [], 0, [], []⟩ :
        CacheState ν ε) = c0 := by
      simpa using h
    rw [← this]

end CacheLemmas

section CacheTheorems

variable {ν ε : Type}

/-- C1: when a key misses (absent or expired at each call time) and no
operation is pending for it, N back-to-back `Cache.get` calls invoke the
fetcher exactly once (the fetch log grows by that one key), every call
receives the same shared promise, the in-flight table afterwards holds
that key mapped to that one promise, and settling it delivers a single
outcome to that shared promise, so every joined caller resolves (or
rejects) identically; moreover from any freshly constructed cache, after
any interleaving of call and settle events the in-flight table never
holds two pending operations for one key. -/
theorem cache_single_flight {s : CacheState ν ε} {k : String}
    {t0 : Int} {ts : List Int}
    (hp : findEntry k s.inFlightRequests = none)
    (hnodup : (s.lruCache.entries.map Prod.fst).Nodup)
    (hmiss : ∀ t ∈ t0 :: ts, Cache.staleOrAbsent s k t = true) :
    (Cache.getMany s k (t0 :: ts)).1 =
      (t0 :: ts).map (fun _ => GetOutcome.awaiting s.nextPromiseId) ∧
    (Cache.getMany s k (t0 :: ts)).2.fetchLog = s.fetchLog ++ [k] ∧
    findEntry k (Cache.getMany s k (t0 :: ts)).2.inFlightRequests =
      some (k, s.nextPromiseId) ∧
    (∀ (o : FetchOutcome ν ε) (t' : Int),
      (Cache.settleStep (Cache.getMany s k (t0 :: ts)).2 k o
        t').resolvedPromises =
        s.resolvedPromises ++ [(s.nextPromiseId, o)]) ∧
    (∀ (capacity maxDuration : Int) (c0 : CacheState ν ε),
      Cache.create ν ε capacity maxDuration = Except.ok c0 →
      ∀ events : List (CacheEvent ν ε),
        ((Cache.runEvents c0 events).inFlightRequests.map
          Prod.fst).Nodup) := by
  have hm0 : Cache.staleOrAbsent s k t0 = true :=
    hmiss t0 (List.mem_cons_self t0 ts)
  have hstep := getStep_start hm0 hp
  have hunfold : Cache.getMany s k (t0 :: ts) =
      ((Cache.getStep s k t0).1 ::
        (Cache.getMany (Cache.getStep s k t0).2 k ts).1,
       (Cache.getMany (Cache.getStep s k t0).2 k ts).2) := rfl
  have hp1 : findEntry k
      (({ s with
          lruCache := (s.lruCache.get k).2,
          fetchLog := s.fetchLog ++ [k],
          inFlightRequests := s.inFlightRequests ++ [(k, s.nextPromiseId)],
          nextPromiseId := s.nextPromiseId + 1 } :
        CacheState ν ε).inFlightRequests) = some (k, s.nextPromiseId) := by
    show findEntry k (s.inFlightRequests ++ [(k, s.nextPromiseId)]) =
      some (k, s.nextPromiseId)
    rw [findEntry_append_right hp]
    simp [findEntry]
  have hnodup1 :
      (({ s with
          lruCache := (s.lruCache.get k).2,
          fetchLog := s.fetchLog ++ [k],
          inFlightRequests := s.inFlightRequests ++ [(k, s.nextPromiseId)],
          nextPromiseId := s.nextPromiseId + 1 } :
        CacheState ν ε).lruCache.entries.map Prod.fst).Nodup :=
    lru_get_nodup hnodup
  have hentry1 : findEntry k
      (({ s with
          lruCache := (s.lruCache.get k).2,
          fetchLog := s.fetchLog ++ [k],
          inFlightRequests := s.inFlightRequests ++ [(k, s.nextPromiseId)],
          nextPromiseId := s.nextPromiseId + 1 } :
        CacheState ν ε).lruCache.entries) =
      findEntry k s.lruCache.entries :=
    lru_get_findEntry_self hnodup
  have hmiss1 : ∀ t' ∈ ts,
      Cache.staleOrAbsent
        ({ s with
            lruCache := (s.lruCache.get k).2,
            fetchLog := s.fetchLog ++ [k],
            inFlightRequests := s.inFlightRequests ++ [(k, s.nextPromiseId)],
            nextPromiseId := s.nextPromiseId + 1 } : CacheState ν ε)
        k t' = true := by
    intro t' ht'
    rw [staleOrAbsent_eq_of hentry1 rfl]
    exact hmiss t' (List.mem_cons_of_mem _ ht')
  have hjoin := getMany_join ts _ hp1 hnodup1 hmiss1
  refine ⟨?_, ?_, ?_, ?_, ?_⟩
  · rw [hunfold, hstep]
    simp only [List.map_cons]
    refine congrArg (fun l => GetOutcome.awaiting s.nextPromiseId :: l) ?_
    exact hjoin.1
  · rw [hunfold, hstep]
    exact hjoin.2.2.1
  · rw [hunfold, hstep]
    exact hjoin.2.1 ▸ hp1
  · intro o t'
    have hfin : findEntry k
        (Cache.getMany (Cache.getStep s k t0).2 k ts).2.inFlightRequests =
        some (k, s.nextPromiseId) := by
      rw [hstep]
      exact hjoin.2.1 ▸ hp1
    rw [hunfold]
    rw [settleStep_found hfin o t']
    show (Cache.getMany (Cache.getStep s k t0).2 k ts).2.resolvedPromises ++
        [(s.nextPromiseId, o)] = s.resolvedPromises ++ [(s.nextPromiseId, o)]
    rw [hstep]
    rw [hjoin.2.2.2.2.2.1]
  · intro capacity maxDuration c0 hc0 events
    refine runEvents_pending_nodup events c0 ?_
    rw [create_ok_inFlight hc0]
    simp

/-- Witness for C1: two concurrent misses on an empty cache share one
promise, one fetch, one settlement, and the in-flight table stays
duplicate-free over a sample interleaving. -/
theorem cache_single_flight_witness :
    (Cache.getMany (⟨⟨2, []⟩, 5, [], 0, [], []⟩ : CacheState Nat String)
        "k" [0, 1]).1 =
      ([0, 1] : List Int).map (fun _ => GetOutcome.awaiting 0) ∧
    (Cache.getMany (⟨⟨2, []⟩, 5, [], 0, [], []⟩ : CacheState Nat String)
        "k" [0, 1]).2.fetchLog = [] ++ ["k"] ∧
    findEntry "k" (Cache.getMany
        (⟨⟨2, []⟩, 5, [], 0, [], []⟩ : CacheState Nat String)
        "k" [0, 1]).2.inFlightRequests = some ("k", 0) ∧
    (Cache.settleStep (Cache.getMany
        (⟨⟨2, []⟩, 5, [], 0, [], []⟩ : CacheState Nat String)
        "k" [0, 1]).2 "k" (FetchOutcome.ok 7) 2).resolvedPromises =
      [] ++ [(0, FetchOutcome.ok 7)] := by
  have hmissW : ∀ t ∈ ([0, 1] : List Int),
      Cache.staleOrAbsent
        (⟨⟨2, []⟩, 5, [], 0, [], []⟩ : CacheState Nat String) "k" t =
        true := by decide
  have h := cache_single_flight
    (s := (⟨⟨2, []⟩, 5, [], 0, [], []⟩ : CacheState Nat String))
    (k := "k") (by decide) (by decide) hmissW
  exact ⟨h.1, h.2.1, h.2.2.1, h.2.2.2.1 (FetchOutcome.ok 7) 2⟩

/-- C2: for an entry written at time t0 under TTL D = `maxDuration`, a
`get` at any `t < t0 + D` is a hit returning the cached value with no
fetch; a `get` at any `t ≥ t0 + D` invokes exactly one fetch and, once
that fetch settles with a new value at time `t'`, the entry holds the
new value with the refreshed timestamp `t'`; and the call is a hit if
and only if `now - timestamp < maxDuration` (strictly). -/
theorem cache_ttl_expiration {s : CacheState ν ε} {k : String} {v : ν}
    {t0 : Int}
    (hfind : findEntry k s.lruCache.entries = some (k, ⟨v, t0⟩))
    (hnodup : (s.lruCache.entries.map Prod.fst).Nodup)
    (hp : findEntry k s.inFlightRequests = none) :
    (∀ t : Int, t < t0 + s.maxDuration →
      (Cache.getStep s k t).1 = GetOutcome.hit v ∧
      (Cache.getStep s k t).2.fetchLog = s.fetchLog) ∧
    (∀ t : Int, t0 + s.maxDuration ≤ t →
      (Cache.getStep s k t).1 = GetOutcome.awaiting s.nextPromiseId ∧
      (Cache.getStep s k t).2.fetchLog = s.fetchLog ++ [k] ∧
      ∀ (v' : ν) (t' : Int),
        findEntry k ((Cache.settleStep (Cache.getStep s k t).2 k
          (FetchOutcome.ok v') t').lruCache.entries) =
          some (k, ⟨v', t'⟩)) ∧
    (∀ t : Int,
      (∃ hv, (Cache.getStep s k t).1 = GetOutcome.hit hv) ↔
        t - t0 < s.maxDuration) := by
  refine ⟨?_, ?_, ?_⟩
  · intro t ht
    have hfresh : t - (⟨v, t0⟩ : CacheEntry ν).timestamp < s.maxDuration := by
      show t - t0 < s.maxDuration
      omega
    rw [getStep_hit hfind hfresh]
    exact ⟨rfl, rfl⟩
  · intro t ht
    have hmiss : Cache.staleOrAbsent s k t = true := by
      rw [staleOrAbsent_found hfind]
      refine decide_eq_true ?_
      show s.maxDuration ≤ t - t0
      omega
    have hstep := getStep_start hmiss hp
    refine ⟨by rw [hstep], by rw [hstep], ?_⟩
    intro v' t'
    have hfin : findEntry k
        (Cache.getStep s k t).2.inFlightRequests =
        some (k, s.nextPromiseId) := by
      rw [hstep]
      show findEntry k (s.inFlightRequests ++ [(k, s.nextPromiseId)]) =
        some (k, s.nextPromiseId)
      rw [findEntry_append_right hp]
      simp [findEntry]
    rw [settleStep_found hfin (FetchOutcome.ok v') t']
    show findEntry k
      (((Cache.getStep s k t).2.lruCache.set k ⟨v', t'⟩).entries) =
      some (k, ⟨v', t'⟩)
    refine lru_set_findEntry_self ?_
    rw [hstep]
    exact lru_get_nodup hnodup
  · intro t
    by_cases hfr : t - t0 < s.maxDuration
    · refine iff_of_true ⟨v, ?_⟩ hfr
      have hfresh : t - (⟨v, t0⟩ : CacheEntry ν).timestamp < s.maxDuration :=
        hfr
      rw [getStep_hit hfind hfresh]
    · refine iff_of_false ?_ hfr
      rintro ⟨hv, hhit⟩
      have hmiss : Cache.staleOrAbsent s k t = true := by
        rw [staleOrAbsent_found hfind]
        refine decide_eq_true ?_
        show s.maxDuration ≤ t - t0
        omega
      rw [getStep_start hmiss hp] at hhit
      exact GetOutcome.noConfusion hhit

/-- Witness for C2: TTL 5, entry written at 100; a hit at 104, a
refetch at 105, and the refreshed timestamp after settlement. -/
theorem cache_ttl_expiration_witness :
    (Cache.getStep (⟨⟨2, [("k", ⟨42, 100⟩)]⟩, 5, [], 0, [], []⟩ :
        CacheState Nat String) "k" 104).1 = GetOutcome.hit 42 ∧
    (Cache.getStep (⟨⟨2, [("k", ⟨42, 100⟩)]⟩, 5, [], 0, [], []⟩ :
        CacheState Nat String) "k" 105).2.fetchLog = [] ++ ["k"] ∧
    findEntry "k" ((Cache.settleStep
        (Cache.getStep (⟨⟨2, [("k", ⟨42, 100⟩)]⟩, 5, [], 0, [], []⟩ :
          CacheState Nat String) "k" 105).2 "k"
        (FetchOutcome.ok 43) 200).lruCache.entries) =
      some ("k", ⟨43, 200⟩) := by
  have hfW : findEntry "k"
      ((⟨⟨2, [("k", ⟨42, 100⟩)]⟩, 5, [], 0, [], []⟩ :
        CacheState Nat String).lruCache.entries) =
      some ("k", (⟨42, 100⟩ : CacheEntry Nat)) := by decide
  have h := cache_ttl_expiration
    (s := (⟨⟨2, [("k", ⟨42, 100⟩)]⟩, 5, [], 0, [], []⟩ : CacheState Nat String))
    (k := "k") hfW (by decide) (by decide)
  exact ⟨(h.1 104 (by decide)).1, (h.2.1 105 (by decide)).2.1,
    (h.2.1 105 (by decide)).2.2 43 200⟩

/-- C5: when the fetch for a pending key settles with a failure, the
backing store is left completely unchanged (nothing written, no eviction
possible), the one shared promise is resolved with that very failure
object for every joiner, the pending operation is removed from the
table, and a later `get` for the key (still missing) starts a fresh
independent fetch. -/
theorem cache_fetch_failure {s : CacheState ν ε} {k : String} {pid : Nat}
    (hp : findEntry k s.inFlightRequests = some (k, pid))
    (hpnodup : (s.inFlightRequests.map Prod.fst).Nodup)
    (e : ε) (t : Int) :
    (Cache.settleStep s k (FetchOutcome.err e) t).lruCache = s.lruCache ∧
    (Cache.settleStep s k (FetchOutcome.err e) t).resolvedPromises =
      s.resolvedPromises ++ [(pid, FetchOutcome.err e)] ∧
    findEntry k
      (Cache.settleStep s k (FetchOutcome.err e) t).inFlightRequests =
      none ∧
    (∀ t' : Int, Cache.staleOrAbsent s k t' = true →
      (Cache.getStep (Cache.settleStep s k (FetchOutcome.err e) t) k
        t').1 = GetOutcome.awaiting
          (Cache.settleStep s k (FetchOutcome.err e) t).nextPromiseId ∧
      (Cache.getStep (Cache.settleStep s k (FetchOutcome.err e) t) k
        t').2.fetchLog =
        (Cache.settleStep s k (FetchOutcome.err e) t).fetchLog ++ [k]) := by
  have hset := settleStep_found hp (FetchOutcome.err e) t
  have hlru : (Cache.settleStep s k (FetchOutcome.err e) t).lruCache =
      s.lruCache := by
    rw [hset]
  have hnone : findEntry k
      (Cache.settleStep s k (FetchOutcome.err e) t).inFlightRequests =
      none := by
    rw [hset]
    exact findEntry_eq_none.2 (not_mem_keys_eraseKey hpnodup)
  refine ⟨hlru, by rw [hset], hnone, ?_⟩
  intro t' hmiss
  have hmiss' : Cache.staleOrAbsent
      (Cache.settleStep s k (FetchOutcome.err e) t) k t' = true := by
    rw [staleOrAbsent_eq_of (congrArg (fun l => findEntry k l.entries) hlru)
      (by rw [hset])]
    exact hmiss
  rw [getStep_start hmiss' hnone]
  exact ⟨rfl, rfl⟩

/-- Witness for C5: a pending fetch for "k" fails; the store stays
empty, the shared promise rejects with the failure, the table empties,
and the next call refetches. -/
theorem cache_fetch_failure_witness :
    (Cache.settleStep (⟨⟨2, []⟩, 5, [("k", 7)], 8, ["k"], []⟩ :
        CacheState Nat String) "k" (FetchOutcome.err "boom") 3).lruCache =
      (⟨2, []⟩ : LRUCache String (CacheEntry Nat)) ∧
    (Cache.settleStep (⟨⟨2, []⟩, 5, [("k", 7)], 8, ["k"], []⟩ :
        CacheState Nat String) "k"
        (FetchOutcome.err "boom") 3).resolvedPromises =
      [] ++ [(7, FetchOutcome.err "boom")] ∧
    findEntry "k" (Cache.settleStep
        (⟨⟨2, []⟩, 5, [("k", 7)], 8, ["k"], []⟩ : CacheState Nat String)
        "k" (FetchOutcome.err "boom") 3).inFlightRequests = none ∧
    (Cache.getStep (Cache.settleStep
        (⟨⟨2, []⟩, 5, [("k", 7)], 8, ["k"], []⟩ : CacheState Nat String)
        "k" (FetchOutcome.err "boom") 3) "k" 4).2.fetchLog =
      (Cache.settleStep (⟨⟨2, []⟩, 5, [("k", 7)], 8, ["k"], []⟩ :
        CacheState Nat String) "k"
        (FetchOutcome.err "boom") 3).fetchLog ++ ["k"] := by
  have hpW : findEntry "k"
      ((⟨⟨2, []⟩, 5, [("k", 7)], 8, ["k"], []⟩ :
        CacheState Nat String).inFlightRequests) = some ("k", 7) := by decide
  have h := cache_fetch_failure
    (s := (⟨⟨2, []⟩, 5, [("k", 7)], 8, ["k"], []⟩ : CacheState Nat String))
    (k := "k") hpW (by decide) "boom" 3
  exact ⟨h.1, h.2.1, h.2.2.1, (h.2.2.2 4 (by decide)).2⟩

/-- C8 counterexample: with TTL 5, entries for "a" and "b" both written
at time 0 in a capacity-2 store, key "a" is stale at time 7; a
`Cache.get` for the entirely absent key "c" leaves the store unchanged,
but the `Cache.get` for the stale resident key "a" promotes "a" to the
most-recently-used position before the fetch settles — the observable
store effects differ, refuting the claimed equivalence. -/
theorem cache_stale_recency_cex :
    Cache.staleOrAbsent (⟨⟨2, [("a", ⟨10, 0⟩), ("b", ⟨20, 0⟩)]⟩, 5, [], 0,
        [], []⟩ : CacheState Nat String) "a" 7 = true ∧
    (Cache.getStep (⟨⟨2, [("a", ⟨10, 0⟩), ("b", ⟨20, 0⟩)]⟩, 5, [], 0, [],
        []⟩ : CacheState Nat String) "c" 7).2.lruCache.entries =
      [("a", ⟨10, 0⟩), ("b", ⟨20, 0⟩)] ∧
    (Cache.getStep (⟨⟨2, [("a", ⟨10, 0⟩), ("b", ⟨20, 0⟩)]⟩, 5, [], 0, [],
        []⟩ : CacheState Nat String) "a" 7).2.lruCache.entries =
      [("b", ⟨20, 0⟩), ("a", ⟨10, 0⟩)] := by
  exact ⟨by decide, by decide, by decide⟩

/-- C8 amended: a resident-but-stale entry is treated as a miss — it is
not removed proactively, the fetcher is invoked and a pending operation
registered exactly as for an absent key — but, unlike an absent key, the
initial store lookup promotes the stale entry to the most-recently-used
position, so the recency effect on the store before settlement differs
from the absent-key case. -/
theorem cache_stale_as_miss {s : CacheState ν ε} {k : String}
    {en : CacheEntry ν} {t : Int}
    (hfind : findEntry k s.lruCache.entries = some (k, en))
    (hstale : s.maxDuration ≤ t - en.timestamp)
    (hnodup : (s.lruCache.entries.map Prod.fst).Nodup)
    (hp : findEntry k s.inFlightRequests = none) :
    (Cache.getStep s k t).1 = GetOutcome.awaiting s.nextPromiseId ∧
    (Cache.getStep s k t).2.fetchLog = s.fetchLog ++ [k] ∧
    (Cache.getStep s k t).2.inFlightRequests =
      s.inFlightRequests ++ [(k, s.nextPromiseId)] ∧
    findEntry k (Cache.getStep s k t).2.lruCache.entries = some (k, en) ∧
    (Cache.getStep s k t).2.lruCache.entries =
      eraseKey k s.lruCache.entries ++ [(k, en)] := by
  have hmiss : Cache.staleOrAbsent s k t = true := by
    rw [staleOrAbsent_found hfind]
    exact decide_eq_true hstale
  have hstep := getStep_start hmiss hp
  have hlru : (Cache.getStep s k t).2.lruCache.entries =
      eraseKey k s.lruCache.entries ++ [(k, en)] := by
    rw [hstep]
    show ((s.lruCache.get k).2).entries =
      eraseKey k s.lruCache.entries ++ [(k, en)]
    rw [lru_get_of_found hfind]
  refine ⟨by rw [hstep], by rw [hstep], by rw [hstep], ?_, hlru⟩
  rw [hlru]
  exact findEntry_eraseKey_append hnodup rfl

/-- Witness for C8 (amended): the stale key "a" of the counterexample
state starts a fetch and ends up promoted at the most-recent end. -/
theorem cache_stale_as_miss_witness :
    (Cache.getStep (⟨⟨2, [("a", ⟨10, 0⟩), ("b", ⟨20, 0⟩)]⟩, 5, [], 0, [],
        []⟩ : CacheState Nat String) "a" 7).1 = GetOutcome.awaiting 0 ∧
    (Cache.getStep (⟨⟨2, [("a", ⟨10, 0⟩), ("b", ⟨20, 0⟩)]⟩, 5, [], 0, [],
        []⟩ : CacheState Nat String) "a" 7).2.lruCache.entries =
      eraseKey "a" [("a", ⟨10, 0⟩), ("b", ⟨20, 0⟩)] ++ [("a", ⟨10, 0⟩)] := by
  have hfW : findEntry "a"
      ((⟨⟨2, [("a", ⟨10, 0⟩), ("b", ⟨20, 0⟩)]⟩, 5, [], 0, [], []⟩ :
        CacheState Nat String).lruCache.entries) =
      some ("a", (⟨10, 0⟩ : CacheEntry Nat)) := by decide
  have h := cache_stale_as_miss
    (s := (⟨⟨2, [("a", ⟨10, 0⟩), ("b", ⟨20, 0⟩)]⟩, 5, [], 0, [], []⟩ :
      CacheState Nat String))
    (k := "a") (t := 7) hfW (by decide) (by decide) (by decide)
  exact ⟨h.1, h.2.2.2.2⟩

end CacheTheorems

section RoutingLemmas

theorem scanNodes_cons (key : String) (w : Int) (sel node : String)
    (s : Int) (rest : List String) :
    scanNodes key w (sel, s) (node :: rest) =
      if computeScore key node * w > s then
        scanNodes key w (node, computeScore key node * w) rest
      else scanNodes key w (sel, s) rest := rfl

theorem scanNodes_spec (key : String) (w : Int) :
    ∀ (l : List String) (sel : String) (s : Int),
      s = computeScore key sel * w →
      (scanNodes key w (sel, s) l).2 =
        computeScore key (scanNodes key w (sel, s) l).1 * w ∧
      s ≤ (scanNodes key w (sel, s) l).2 ∧
      (∀ (j : Nat) (hj : j < l.length),
        computeScore key (l.get ⟨j, hj⟩) * w ≤
          (scanNodes key w (sel, s) l).2) ∧
      (((scanNodes key w (sel, s) l).1 = sel ∧
        (scanNodes key w (sel, s) l).2 = s) ∨
       (∃ (i : Nat) (hi : i < l.length),
         l.get ⟨i, hi⟩ = (scanNodes key w (sel, s) l).1 ∧
         s < (scanNodes key w (sel, s) l).2 ∧
         ∀ (j : Nat) (hj : j < l.length), j < i →
           computeScore key (l.get ⟨j, hj⟩) * w <
             (scanNodes key w (sel, s) l).2)) := by
  intro l
  induction l with
  | nil =>
    intro sel s hs
    refine ⟨by simpa [scanNodes] using hs, le_refl s, ?_, Or.inl ⟨rfl, rfl⟩⟩
    intro j hj
    exact absurd hj (Nat.not_lt_zero j)
  | cons node rest ih =>
    intro sel s hs
    rw [scanNodes_cons]
    by_cases hgt : computeScore key node * w > s
    · rw [if_pos hgt]
      obtain ⟨ih1, ih2, ih3, ih4⟩ := ih node (computeScore key node * w) rfl
      refine ⟨ih1, le_of_lt (lt_of_lt_of_le hgt ih2), ?_, ?_⟩
      · intro j hj
        cases j with
        | zero => exact ih2
        | succ j => exact ih3 j (Nat.lt_of_succ_lt_succ hj)
      · rcases ih4 with ⟨hsel, hsc⟩ | ⟨i, hi, hget, hlt, hearlier⟩
        · refine Or.inr ⟨0, Nat.succ_pos _, hsel.symm, by rw [hsc]; exact hgt,
            ?_⟩
          intro j hj hj0
          exact absurd hj0 (Nat.not_lt_zero j)
        · refine Or.inr ⟨i + 1, Nat.succ_lt_succ hi, hget,
            lt_trans hgt hlt, ?_⟩
          intro j hj hji
          cases j with
          | zero => exact hlt
          | succ j =>
            exact hearlier j (Nat.lt_of_succ_lt_succ hj)
              (Nat.lt_of_succ_lt_succ hji)
    · rw [if_neg hgt]
      have hle : computeScore key node * w ≤ s := not_lt.1 hgt
      obtain ⟨ih1, ih2, ih3, ih4⟩ := ih sel s hs
      refine ⟨ih1, ih2, ?_, ?_⟩
      · intro j hj
        cases j with
        | zero => exact le_trans hle ih2
        | succ j => exact ih3 j (Nat.lt_of_succ_lt_succ hj)
      · rcases ih4 with hl | ⟨i, hi, hget, hlt, hearlier⟩
        · exact Or.inl hl
        · refine Or.inr ⟨i + 1, Nat.succ_lt_succ hi, hget, hlt, ?_⟩
          intro j hj hji
          cases j with
          | zero => exact lt_of_le_of_lt hle hlt
          | succ j =>
            exact hearlier j (Nat.lt_of_succ_lt_succ hj)
              (Nat.lt_of_succ_lt_succ hji)

theorem scanNodes_weight_pos (key : String) {w : Int} (hw : 0 < w) :
    ∀ (l : List String) (sel : String),
      (scanNodes key w (sel, computeScore key sel * w) l).1 =
      (scanNodes key 1 (sel, computeScore key sel * 1) l).1 := by
  intro l
  induction l with
  | nil => intro sel; rfl
  | cons node rest ih =>
    intro sel
    have hiff : (computeScore key node * w > computeScore key sel * w) ↔
        (computeScore key node * 1 > computeScore key sel * 1) := by
      constructor
      · intro h
        simpa using (mul_lt_mul_right hw).1 h
      · intro h
        exact (mul_lt_mul_right hw).2 (by simpa using h)
    rw [scanNodes_cons, scanNodes_cons]
    by_cases hgt : computeScore key node * 1 > computeScore key sel * 1
    · rw [if_pos hgt, if_pos (hiff.2 hgt)]
      exact ih node
    · rw [if_neg hgt, if_neg (fun hW => hgt (hiff.1 hW))]
      exact ih sel

end RoutingLemmas

section RoutingTheorems

/-- C7: `routeToNode` fails with the routing error on an empty node
list; on a non-empty list it returns the node at the earliest position
achieving the maximal weighted score `hash(key + ":" + nodeId) * weight`
(the scan replaces its running maximum only on a strictly greater score,
so ties keep the earlier-seen node and selection is deterministic for an
identical ordered list); a singleton list returns its element, which is
exactly what the general scan started on it yields. -/
theorem hrw_route_spec (key : String) (weight : Int) (nodes : List String) :
    (nodes = [] →
      routeToNode key nodes weight =
        Except.error "No nodes available for routing") ∧
    (nodes ≠ [] →
      ∃ sel, routeToNode key nodes weight = Except.ok sel ∧
        IsFirstArgmax key weight nodes sel) ∧
    (∀ n, nodes = [n] →
      routeToNode key nodes weight = Except.ok n ∧
      (scanNodes key weight (n, computeScore key n * weight) []).1 = n) := by
  refine ⟨?_, ?_, ?_⟩
  · intro h
    rw [h]
    rfl
  · intro hne
    cases nodes with
    | nil => exact absurd rfl hne
    | cons n0 rest =>
      cases rest with
      | nil =>
        refine ⟨n0, rfl, 0, Nat.succ_pos _, rfl, ?_, ?_⟩
        · intro j hj
          cases j with
          | zero => exact le_refl _
          | succ j =>
            exact absurd (Nat.lt_of_succ_lt_succ hj) (Nat.not_lt_zero j)
        · intro j hj hj0
          exact absurd hj0 (Nat.not_lt_zero j)
      | cons n1 rest' =>
        obtain ⟨h1, h2, h3, h4⟩ := scanNodes_spec key weight (n1 :: rest')
          n0 (computeScore key n0 * weight) rfl
        refine ⟨(scanNodes key weight
          (n0, computeScore key n0 * weight) (n1 :: rest')).1, rfl, ?_⟩
        rcases h4 with ⟨hsel, hsc⟩ | ⟨i, hi, hget, hlt, hearlier⟩
        · refine ⟨0, Nat.succ_pos _, hsel.symm, ?_, ?_⟩
          · intro j hj
            cases j with
            | zero => exact le_refl _
            | succ j =>
              have hle := h3 j (Nat.lt_of_succ_lt_succ hj)
              rw [hsc] at hle
              exact hle
          · intro j hj hj0
            exact absurd hj0 (Nat.not_lt_zero j)
        · refine ⟨i + 1, Nat.succ_lt_succ hi, hget, ?_, ?_⟩
          · intro j hj
            have hscore : computeScore key
                ((n0 :: n1 :: rest').get ⟨i + 1, Nat.succ_lt_succ hi⟩) *
                weight =
                (scanNodes key weight (n0, computeScore key n0 * weight)
                  (n1 :: rest')).2 := by
              show computeScore key ((n1 :: rest').get ⟨i, hi⟩) * weight = _
              rw [hget, ← h1]
            rw [hscore]
            cases j with
            | zero => exact le_of_lt hlt
            | succ j => exact h3 j (Nat.lt_of_succ_lt_succ hj)
          · intro j hj hji
            have hscore : computeScore key
                ((n0 :: n1 :: rest').get ⟨i + 1, Nat.succ_lt_succ hi⟩) *
                weight =
                (scanNodes key weight (n0, computeScore key n0 * weight)
                  (n1 :: rest')).2 := by
              show computeScore key ((n1 :: rest').get ⟨i, hi⟩) * weight = _
              rw [hget, ← h1]
            rw [hscore]
            cases j with
            | zero => exact hlt
            | succ j =>
              exact hearlier j (Nat.lt_of_succ_lt_succ hj)
                (Nat.lt_of_succ_lt_succ hji)
  · intro n hn
    rw [hn]
    exact ⟨rfl, rfl⟩

/-- Witness for C7: empty list fails, a two-node list selects a first
argmax, a singleton returns its element and agrees with the scan. -/
theorem hrw_route_spec_witness :
    routeToNode "x" [] 1 = Except.error "No nodes available for routing" ∧
    (∃ sel, routeToNode "x" ["a", "b"] 1 = Except.ok sel ∧
      IsFirstArgmax "x" 1 ["a", "b"] sel) ∧
    (routeToNode "x" ["a"] 1 = Except.ok "a" ∧
      (scanNodes "x" 1 ("a", computeScore "x" "a" * 1) []).1 = "a") :=
  ⟨(hrw_route_spec "x" 1 []).1 rfl,
   (hrw_route_spec "x" 1 ["a", "b"]).2.1 (by decide),
   (hrw_route_spec "x" 1 ["a"]).2.2 "a" rfl⟩

/-- C10: the single `weight` parameter multiplies every node's score by
the same factor, so for any positive weight the selected node is the
same as with the default weight 1 — the argument is selection-
irrelevant. -/
theorem hrw_weight_irrelevant (key : String) (nodes : List String)
    {w : Int} (hw : 0 < w) :
    routeToNode key nodes w = routeToNode key nodes 1 := by
  cases nodes with
  | nil => rfl
  | cons n0 rest =>
    cases rest with
    | nil => rfl
    | cons n1 rest' =>
      show Except.ok
          (scanNodes key w (n0, computeScore key n0 * w) (n1 :: rest')).1 =
        Except.ok
          (scanNodes key 1 (n0, computeScore key n0 * 1) (n1 :: rest')).1
      rw [scanNodes_weight_pos key hw (n1 :: rest') n0]

/-- Witness for C10 at weight 2 on a two-node list. -/
theorem hrw_weight_irrelevant_witness :
    routeToNode "x" ["a", "b"] 2 = routeToNode "x" ["a", "b"] 1 :=
  hrw_weight_irrelevant "x" ["a", "b"] (by decide)

end RoutingTheorems

end CachingDemo
